import Mathlib

/-!
Verification of the redbucket multi-zone leaky-bucket rate limiter.

The development shallowly embeds the Python sources of the `redbucket`
package. Numeric quantities (timestamps, rates, bucket values, delays) are
modelled as rationals: the Python code computes with IEEE-754 doubles, and
this embedding idealises that arithmetic as exact, which is the level at
which the specification states its properties. The codec layer, which is
genuinely about bit patterns, is modelled separately at the byte level.

Module map:
  - `src/redbucket/data.py`      -> `Zone`, `RateLimit`, `State`, `Response`
  - `src/redbucket/in_memory.py` -> `MemEntry`, `InMemoryLimiter`, `inMemoryRequest`
  - `src/redbucket/transactional.py` -> `txFn`, `transactionalRequest`
  - `src/redbucket/script.py`    -> `luaScriptRun`, `scriptRequest`
  - `src/redbucket/redis.py`     -> `redisPyRequest`, module-import model
  - `src/redbucket/base.py`      -> `validateLimits`, `baseConfigure`,
                                    `validateKeyFormat`, parse model of
                                    Python format strings
  - `src/redbucket/codecs.py`    -> `structEncode`/`structDecode`,
                                    `jsonEncode`/`jsonDecode`
-/

namespace Redbucket

/-- Zone from `data.py`: namespace for rate limiting state.
`rate` is requests per second, `expiry` the TTL in whole seconds. -/
structure Zone where
  name : String
  rate : ℚ
  expiry : ℤ := 60
  deriving Repr, DecidableEq

/-- RateLimit from `data.py`: rate limit for a given zone. -/
structure RateLimit where
  zone : Zone
  burst : ℚ := 0
  delay : ℚ := 0
  deriving Repr, DecidableEq

/-- State from `data.py`: internal rate limiting state, a pair of a Unix
timestamp and a time-adjusted request count. -/
structure State where
  timestamp : ℚ
  value : ℚ
  deriving Repr, DecidableEq

/-- Response from `data.py`: whether the request was accepted, and the delay
to apply (absent on rejection). -/
structure Response where
  accepted : Bool
  delay : Option ℚ
  deriving Repr, DecidableEq

/-! ## The leaky-bucket core

The per-limit computation appears verbatim in `InMemoryRateLimiter.request`
(`in_memory.py` lines 63-71), `RedisTransactionalRateLimiter._request`
(`transactional.py` lines 60-70), `RedisRateLimiter._request` (`redis.py`
lines 61-70) and the Lua template (`script.py` lines 40-52):

    t0, v0 = state or (t1, 0)
    v1 = max(v0 - (t1 - t0) * rate, 0) + 1
    c = burst + 1 - v1
    if c < -delay: reject
    if c < 0: delay = max(delay, -c/rate)
    new state = (t1, v1)
-/

/-- Absent state handling: `state.get(key) or (t1, 0)` resp.
`codec.decode(rstate) or (t1, 0)`. -/
def priorState (s0 : Option State) (t1 : ℚ) : State :=
  s0.getD ⟨t1, 0⟩

/-- The adjusted count `v1 = max(v0 - (t1 - t0) * rate, 0) + 1`. -/
def stepValue (limit : RateLimit) (s0 : Option State) (t1 : ℚ) : ℚ :=
  max ((priorState s0 t1).value
        - (t1 - (priorState s0 t1).timestamp) * limit.zone.rate) 0 + 1

/-- The signed headroom `c = burst + 1 - v1`. -/
def headroom (limit : RateLimit) (s0 : Option State) (t1 : ℚ) : ℚ :=
  limit.burst + 1 - stepValue limit s0 t1

/-- The delay contributed by one limit: `-c / rate` in the delay band,
zero in the burst band. -/
def perLimitDelay (limit : RateLimit) (s0 : Option State) (t1 : ℚ) : ℚ :=
  if headroom limit s0 t1 < 0 then
    -headroom limit s0 t1 / limit.zone.rate
  else 0

/-- Outcome of the per-limit step: reject, or accept carrying the delay
contribution and the proposed new state. -/
inductive StepOutcome where
  | reject
  | accept (delay : ℚ) (newState : State)
  deriving Repr, DecidableEq

/-- The per-limit leaky-bucket step, the body of the shared evaluation loop. -/
def limitStep (limit : RateLimit) (s0 : Option State) (t1 : ℚ) : StepOutcome :=
  let t0 := (priorState s0 t1).timestamp
  let v0 := (priorState s0 t1).value
  let v1 := max (v0 - (t1 - t0) * limit.zone.rate) 0 + 1
  let c := limit.burst + 1 - v1
  if c < -limit.delay then .reject
  else .accept (if c < 0 then -c / limit.zone.rate else 0) ⟨t1, v1⟩

/-- The shared multi-limit evaluation loop. Iterates the limits in request
order with the running `delay` accumulator; an early `none` models the
immediate rejection (`return False, None` / `return Response(False, None)` /
Lua `return false`); on success it yields the final delay and the list of
proposed new states, in order. -/
def evalLimits (t1 : ℚ) : List (RateLimit × Option State) → ℚ → Option (ℚ × List State)
  | [], delay => some (delay, [])
  | (limit, s0) :: rest, delay =>
    let t0 := (priorState s0 t1).timestamp
    let v0 := (priorState s0 t1).value
    let v1 := max (v0 - (t1 - t0) * limit.zone.rate) 0 + 1
    let c := limit.burst + 1 - v1
    if c < -limit.delay then none
    else
      let delay1 := if c < 0 then max delay (-c / limit.zone.rate) else delay
      match evalLimits t1 rest delay1 with
      | none => none
      | some (d, states) => some (d, State.mk t1 v1 :: states)

/-- C1: the per-limit leaky-bucket step. For a limit with positive rate and
non-negative burst and delay, a prior state that is absent or no newer than
the evaluation time, the step computes `v1 = max(v0 - (t1 - t0) * rate, 0) + 1`
(`v1 = 1` when the prior state is absent) and `c = burst + 1 - v1`, accepts
with delay 0 when `c >= 0`, accepts with delay `-c / rate` when
`-delay <= c < 0`, rejects when `c < -delay`, and on accept proposes exactly
the new state `(t1, v1)`. -/
theorem C1_leaky_bucket_step (limit : RateLimit) (s0 : Option State) (t1 : ℚ)
    (hrate : 0 < limit.zone.rate) (hburst : 0 ≤ limit.burst)
    (hdelay : 0 ≤ limit.delay)
    (ht : ∀ st, s0 = some st → st.timestamp ≤ t1) :
    (∀ st, s0 = some st →
      stepValue limit s0 t1
        = max (st.value - (t1 - st.timestamp) * limit.zone.rate) 0 + 1)
    ∧ (s0 = none → stepValue limit s0 t1 = 1)
    ∧ headroom limit s0 t1 = limit.burst + 1 - stepValue limit s0 t1
    ∧ (0 ≤ headroom limit s0 t1 →
        limitStep limit s0 t1 = .accept 0 ⟨t1, stepValue limit s0 t1⟩)
    ∧ (-limit.delay ≤ headroom limit s0 t1 → headroom limit s0 t1 < 0 →
        limitStep limit s0 t1
          = .accept (-headroom limit s0 t1 / limit.zone.rate)
              ⟨t1, stepValue limit s0 t1⟩)
    ∧ (headroom limit s0 t1 < -limit.delay →
        limitStep limit s0 t1 = .reject) := by
  refine ⟨?_, ?_, rfl, ?_, ?_, ?_⟩
  · intro st h
    subst h
    simp [stepValue, priorState]
  · intro h
    subst h
    simp [stepValue, priorState]
  · intro h
    rw [limitStep]
    simp only [headroom] at h
    rw [if_neg (by simp only [stepValue] at h ⊢; linarith)]
    have hc : ¬ (limit.burst + 1 - stepValue limit s0 t1 < 0) := by linarith
    simp only [stepValue, priorState] at hc ⊢
    rw [if_neg hc]
  · intro h1 h2
    rw [limitStep]
    simp only [headroom] at h1 h2
    rw [if_neg (by simp only [stepValue] at h1 ⊢; linarith)]
    have hc : limit.burst + 1 - stepValue limit s0 t1 < 0 := h2
    simp only [stepValue, priorState] at hc ⊢
    rw [if_pos hc]
    simp [headroom, stepValue, priorState]
  · intro h
    rw [limitStep]
    simp only [headroom] at h
    simp only [stepValue, priorState] at h ⊢
    rw [if_pos h]

/-- Witness for C1: a concrete evaluation of the step. Limit with rate 2,
burst 0, delay 0, prior state `(100, 1)`, evaluated at `t1 = 100.3`:
`v1 = max(1 - 0.6, 0) + 1 = 1.4`, `c = -0.4 < -0 = -delay`, reject. -/
theorem C1_leaky_bucket_step_witness :
    limitStep ⟨⟨"z1", 2, 60⟩, 0, 0⟩ (some ⟨100, 1⟩) (100 + 3/10) = .reject := by
  have h := C1_leaky_bucket_step ⟨⟨"z1", 2, 60⟩, 0, 0⟩ (some ⟨100, 1⟩)
    (100 + 3/10) (by norm_num) (by norm_num) (by norm_num)
    (by intro st hst; cases hst; norm_num)
  exact h.2.2.2.2.2 (by norm_num [headroom, stepValue, priorState])

/-! ### Characterisation of the evaluation loop -/

/-- Unfolding of `evalLimits` on a cons, phrased with the named per-limit
quantities. -/
theorem evalLimits_cons (t1 : ℚ) (limit : RateLimit) (s0 : Option State)
    (rest : List (RateLimit × Option State)) (d : ℚ) :
    evalLimits t1 ((limit, s0) :: rest) d =
      if headroom limit s0 t1 < -limit.delay then none
      else
        match evalLimits t1 rest
            (if headroom limit s0 t1 < 0 then
              max d (-headroom limit s0 t1 / limit.zone.rate)
             else d) with
        | none => none
        | some (dd, states) => some (dd, ⟨t1, stepValue limit s0 t1⟩ :: states) :=
  rfl

/-- The loop rejects exactly when some referenced limit is in the reject
band. -/
theorem evalLimits_eq_none_iff (t1 : ℚ) (pairs : List (RateLimit × Option State))
    (d : ℚ) :
    evalLimits t1 pairs d = none ↔
      ∃ p ∈ pairs, headroom p.1 p.2 t1 < -p.1.delay := by
  induction pairs generalizing d with
  | nil => simp [evalLimits]
  | cons hd rest ih =>
    obtain ⟨limit, s0⟩ := hd
    rw [evalLimits_cons]
    by_cases hrej : headroom limit s0 t1 < -limit.delay
    · rw [if_pos hrej]
      constructor
      · intro _
        exact ⟨(limit, s0), by simp, hrej⟩
      · intro _
        rfl
    · rw [if_neg hrej]
      cases h : evalLimits t1 rest
          (if headroom limit s0 t1 < 0 then
            max d (-headroom limit s0 t1 / limit.zone.rate)
           else d) with
      | none =>
        have := (ih _).mp h
        simp only [true_iff]
        obtain ⟨p, hp, hple⟩ := this
        exact ⟨p, List.mem_cons_of_mem _ hp, hple⟩
      | some r =>
        obtain ⟨dd, states⟩ := r
        simp only [reduceCtorEq, false_iff]
        rintro ⟨p, hp, hc⟩
        rcases List.mem_cons.mp hp with h1 | h1
        · subst h1
          exact hrej hc
        · have hnone : evalLimits t1 rest
              (if headroom limit s0 t1 < 0 then
                max d (-headroom limit s0 t1 / limit.zone.rate)
               else d) = none := (ih _).mpr ⟨p, h1, hc⟩
          rw [h] at hnone
          exact absurd hnone (by simp)

/-- The running-max delay accumulation performed by the loop, in isolation. -/
def delayAcc (t1 : ℚ) : List (RateLimit × Option State) → ℚ → ℚ
  | [], d => d
  | (limit, s0) :: rest, d =>
    delayAcc t1 rest
      (if headroom limit s0 t1 < 0 then
        max d (-headroom limit s0 t1 / limit.zone.rate)
       else d)

/-- When no referenced limit is in the reject band, the loop accepts and
returns the accumulated delay together with the proposed new state
`(t1, v1_i)` of every limit, in request order. -/
theorem evalLimits_eq_some (t1 : ℚ) (pairs : List (RateLimit × Option State))
    (d : ℚ) (hacc : ∀ p ∈ pairs, ¬ headroom p.1 p.2 t1 < -p.1.delay) :
    evalLimits t1 pairs d =
      some (delayAcc t1 pairs d,
        pairs.map fun p => ⟨t1, stepValue p.1 p.2 t1⟩) := by
  induction pairs generalizing d with
  | nil => simp [evalLimits, delayAcc]
  | cons hd rest ih =>
    obtain ⟨limit, s0⟩ := hd
    rw [evalLimits_cons]
    rw [if_neg (hacc (limit, s0) (by simp))]
    rw [ih _ (fun p hp => hacc p (List.mem_cons_of_mem _ hp))]
    simp [delayAcc]

/-- The delay accumulator never decreases. -/
theorem delayAcc_le (t1 : ℚ) (pairs : List (RateLimit × Option State)) (d : ℚ) :
    d ≤ delayAcc t1 pairs d := by
  induction pairs generalizing d with
  | nil => simp [delayAcc]
  | cons hd rest ih =>
    obtain ⟨limit, s0⟩ := hd
    rw [delayAcc]
    refine le_trans ?_ (ih _)
    split
    · exact le_max_left _ _
    · exact le_rfl

/-- Starting from a non-negative accumulator, the loop's delay accumulation
is exactly the running maximum of the per-limit delays. -/
theorem delayAcc_eq_foldl (t1 : ℚ) (pairs : List (RateLimit × Option State))
    (d : ℚ) (hd : 0 ≤ d) :
    delayAcc t1 pairs d =
      List.foldl max d (pairs.map fun p => perLimitDelay p.1 p.2 t1) := by
  induction pairs generalizing d with
  | nil => simp [delayAcc]
  | cons hd2 rest ih =>
    obtain ⟨limit, s0⟩ := hd2
    rw [delayAcc, List.map_cons, List.foldl_cons]
    by_cases hneg : headroom limit s0 t1 < 0
    · rw [if_pos hneg]
      rw [perLimitDelay, if_pos hneg]
      exact ih _ (le_trans hd (le_max_left _ _))
    · rw [if_neg hneg]
      rw [perLimitDelay, if_neg hneg]
      rw [max_eq_left hd]
      exact ih _ hd

/-! ## In-memory backend (`in_memory.py`)

The per-limit `threading.Lock` objects and the sort of the request list by
lock identity are not modelled: they order lock acquisition for the
concurrent case only, and the loop results (rejection, maximum delay,
per-entry writes) do not depend on the iteration order. The Python method
returns bare `(success, delay)` pairs; the model reuses the `Response`
structure for the same shape. -/

/-- One value of the `rate_limits` dict of `InMemoryRateLimiter`: the
namedtuple `_RateLimit(limit, state, lock)` without the lock. The `state`
field is the per-key state dict, modelled as an association list. -/
structure MemEntry where
  limit : RateLimit
  state : List (String × State)
  deriving Repr, DecidableEq

/-- An `InMemoryRateLimiter` instance: its `rate_limits` dict. -/
structure InMemoryLimiter where
  rateLimits : List (String × MemEntry)
  deriving Repr, DecidableEq

/-- The duplicate-zone check loop of `InMemoryRateLimiter.__init__`. -/
def dupZoneCheck : List (String × RateLimit) → List String → Except String Unit
  | [], _ => .ok ()
  | (_, limit) :: rest, zones =>
    if limit.zone.name ∈ zones then
      .error ("Multiple rate limits for zone " ++ limit.zone.name)
    else dupZoneCheck rest (limit.zone.name :: zones)

/-- `InMemoryRateLimiter.__init__`: reject duplicate zones, then build one
entry with an empty state dict per configured limit. -/
def inMemoryInit (rateLimits : List (String × RateLimit)) :
    Except String InMemoryLimiter := do
  let _ ← dupZoneCheck rateLimits []
  return ⟨rateLimits.map fun p => (p.1, ⟨p.2, []⟩)⟩

/-- The `_Req` list built at the top of `InMemoryRateLimiter.request`:
each referenced limit name is looked up in `rate_limits` (an unknown name
raises `KeyError`), keeping the request's key alongside. -/
def inMemoryReqs (rl : InMemoryLimiter) :
    List (String × String) → Except String (List (String × MemEntry × String))
  | [] => .ok []
  | (lname, key) :: rest =>
    match List.lookup lname rl.rateLimits with
    | none => .error ("KeyError: " ++ lname)
    | some e => (inMemoryReqs rl rest).map fun l => (lname, e, key) :: l

/-- The (limit, prior state) pairs the loop evaluates:
`state.get(key)` on each referenced entry. -/
def inMemoryPairs (reqs : List (String × MemEntry × String)) :
    List (RateLimit × Option State) :=
  reqs.map fun r => (r.2.1.limit, List.lookup r.2.2 r.2.1.state)

/-- Assignment into a Python dict: replace the value of an existing key in
place, else append the new binding. -/
def assocSet {α : Type} : List (String × α) → String → α → List (String × α)
  | [], k, v => [(k, v)]
  | (k2, v2) :: rest, k, v =>
    if k2 = k then (k2, v) :: rest else (k2, v2) :: assocSet rest k v

/-- One write `req.rl.state[req.key] = state` of the commit loop, updating
the entry of the given limit name. -/
def applyWrite (rl : InMemoryLimiter) (lname key : String) (st : State) :
    InMemoryLimiter :=
  ⟨rl.rateLimits.map fun p =>
    (p.1, if p.1 = lname then ⟨p.2.limit, assocSet p.2.state key st⟩ else p.2)⟩

/-- The commit loop `for req, state in zip(reqs, states)`. -/
def writeBack (rl : InMemoryLimiter) :
    List ((String × String) × State) → InMemoryLimiter
  | [] => rl
  | ((lname, key), st) :: rest => writeBack (applyWrite rl lname key st) rest

/-- The evaluation and commit phases of `InMemoryRateLimiter.request`: run
the shared loop over the gathered request list; keep the limiter unchanged on
rejection, else commit every proposed state. -/
def inMemoryEval (rl : InMemoryLimiter)
    (reqs : List (String × MemEntry × String)) (t1 : ℚ) :
    Response × InMemoryLimiter :=
  match evalLimits t1 (inMemoryPairs reqs) 0 with
  | none => (⟨false, none⟩, rl)
  | some (delay, states) =>
    (⟨true, some delay⟩,
      writeBack rl ((reqs.map fun r => (r.1, r.2.2)).zip states))

/-- `InMemoryRateLimiter.request` with the clock sample `t1` passed in
(`time.monotonic()` is sampled once per call). -/
def inMemoryRequest (rl : InMemoryLimiter) (keys : List (String × String))
    (t1 : ℚ) : Except String (Response × InMemoryLimiter) :=
  (inMemoryReqs rl keys).map fun reqs => inMemoryEval rl reqs t1

/-! ## Redis-backed backends

The Redis store is external to the package; it is modelled as a decoded view
`String → Option State` of the per-key bytes (the codec layer is verified
separately below, and `transactional.py`, `redis.py` and the Lua template all
go through it symmetrically on read and write). Within `redis.transaction`
and within a Lua script invocation, commands execute immediately against that
view; watch conflicts and retries concern concurrent interleavings only and
are outside this embedding. `TIME` is the single sample `t1`. Each backend
model returns, besides the `Response`, the list of keys it read (the `MGET`
argument list, equal to the watched keys) and the list of `SETEX` writes it
issued as `(key, ttl, state)` triples. -/

/-- A configured Redis-backed limiter: its `_rate_limits` table and the
rendering `_redis_key` of its validated key format. -/
structure RedisConfig where
  rateLimits : List (String × RateLimit)
  redisKey : String → String → String

/-- Rendering of the default key format `redbucket:{zone}:{key}`. -/
def defaultRedisKey (zone key : String) : String :=
  "redbucket:" ++ zone ++ ":" ++ key

/-- The limit/key gathering loop shared by `_request` of `transactional.py`
(lines 42-46), `redis.py` (lines 44-48) and `script.py` (lines 123-127): look
each referenced limit name up in `_rate_limits` (an unknown name raises
`KeyError`) and render its Redis key. -/
def gatherLimits (cfg : RedisConfig) :
    List (String × String) → Except String (List (String × RateLimit))
  | [] => .ok []
  | (lname, key) :: rest =>
    match List.lookup lname cfg.rateLimits with
    | none => .error ("KeyError: " ++ lname)
    | some limit =>
      (gatherLimits cfg rest).map fun l =>
        (cfg.redisKey limit.zone.name key, limit) :: l

/-- The body of `tx_fn` (`transactional.py` lines 48-75, identically
`redis.py` lines 50-77) after the `MGET` and `TIME` round trips: evaluate the
loop over the decoded states; on reject, `UNWATCH` and return
`Response(False, None)` with no writes; on accept, `MULTI` and `SETEX` each
key with its zone's expiry and the proposed state. -/
def txFn (items : List (String × RateLimit × Option State)) (t1 : ℚ) :
    Response × List (String × ℤ × State) :=
  match evalLimits t1 (items.map fun i => (i.2.1, i.2.2)) 0 with
  | none => (⟨false, none⟩, [])
  | some (delay, states) =>
    (⟨true, some delay⟩,
      List.zipWith (fun (i : String × RateLimit × Option State) st =>
        (i.1, i.2.1.zone.expiry, st)) items states)

/-- `RedisTransactionalRateLimiter._request`: the empty-key short circuit,
then one transaction attempt over the store view. -/
def transactionalRequest (cfg : RedisConfig) (keys : List (String × String))
    (store : String → Option State) (t1 : ℚ) :
    Except String (Response × List String × List (String × ℤ × State)) :=
  if keys = [] then .ok (⟨true, some 0⟩, [], [])
  else
    match gatherLimits cfg keys with
    | .error e => .error e
    | .ok rkls =>
      let items := rkls.map fun rkl => (rkl.1, rkl.2, store rkl.1)
      let r := txFn items t1
      .ok (r.1, rkls.map (·.1), r.2)

/-- The `LUA_TEMPLATE` script of `script.py`: `MGET` all keys, read `TIME`,
run the shared loop over the decoded states looking each limit up in the
generated `limits` table; `return false` on any rejection (no writes), else
`SETEX` each key with `{t1, v1, expiry}` and return the delay (as a string;
the client parses it back, modelled as the exact value). -/
def luaScriptRun (items : List (String × RateLimit × Option State)) (t1 : ℚ) :
    Option ℚ × List (String × ℤ × State) :=
  match evalLimits t1 (items.map fun i => (i.2.1, i.2.2)) 0 with
  | none => (none, [])
  | some (delay, states) =>
    (some delay,
      List.zipWith (fun (i : String × RateLimit × Option State) st =>
        (i.1, i.2.1.zone.expiry, st)) items states)

/-- `RedisScriptRateLimiter._request`: the empty-key short circuit, then one
script invocation; a truthy (string) result is an accept carrying the parsed
delay, a false result is a reject. -/
def scriptRequest (cfg : RedisConfig) (keys : List (String × String))
    (store : String → Option State) (t1 : ℚ) :
    Except String (Response × List String × List (String × ℤ × State)) :=
  if keys = [] then .ok (⟨true, some 0⟩, [], [])
  else
    match gatherLimits cfg keys with
    | .error e => .error e
    | .ok rkls =>
      let items := rkls.map fun rkl => (rkl.1, rkl.2, store rkl.1)
      let r := luaScriptRun items t1
      match r.1 with
      | some d => .ok (⟨true, some d⟩, rkls.map (·.1), r.2)
      | none => .ok (⟨false, none⟩, rkls.map (·.1), r.2)

/-- `RedisRateLimiter._request` of `redis.py`: identical to the transactional
backend except that it lacks the empty-key short circuit, so an empty request
still runs the transaction body over zero keys. -/
def redisPyRequest (cfg : RedisConfig) (keys : List (String × String))
    (store : String → Option State) (t1 : ℚ) :
    Except String (Response × List String × List (String × ℤ × State)) :=
  match gatherLimits cfg keys with
  | .error e => .error e
  | .ok rkls =>
    let items := rkls.map fun rkl => (rkl.1, rkl.2, store rkl.1)
    let r := txFn items t1
    .ok (r.1, rkls.map (·.1), r.2)

/-! ## Module imports of `redis.py`

Line 9 of `src/redbucket/redis.py` reads

    from redbucket.base import RateLimit, RateLimiter, Response, State

which succeeds only if each of those names is bound at the top level of
`src/redbucket/base.py`. -/

/-- The names bound at the top level of module `redbucket.base`: its imports
(lines 3-10) and the declarations `RateLimiter`, `RedisRateLimiter`,
`get_redis_version` and `_validate_key_format`. -/
def baseModuleNames : List String :=
  ["math", "warnings", "ABC", "abstractmethod", "Formatter", "Any", "Mapping",
   "Set", "Tuple", "Redis", "ResponseError", "RateLimit", "Response",
   "RateLimiter", "RedisRateLimiter", "get_redis_version",
   "_validate_key_format"]

/-- The names `redis.py` line 9 imports from `redbucket.base`. -/
def redisModuleBaseImports : List String :=
  ["RateLimit", "RateLimiter", "Response", "State"]

/-- Whether importing module `redbucket.redis` succeeds: every name of its
`from redbucket.base import ...` statement must be bound in `redbucket.base`
(otherwise Python raises `ImportError` when the module is loaded). -/
def redisModuleImportOk : Bool :=
  redisModuleBaseImports.all fun n => baseModuleNames.contains n

/-! ## Base-class configuration and lifecycle (`base.py`) -/

/-- A warning emitted by `RateLimiter._validate` for a limit whose zone
expiry is below the recommended minimum. -/
structure ConfigWarning where
  lname : String
  zoneName : String
  expiry : ℤ
  recommended : ℤ
  deriving Repr, DecidableEq

/-- The recommended minimum expiry named in the warning:
`math.ceil((burst + delay + 1) / rate)`. -/
def recommendedExpiry (limit : RateLimit) : ℤ :=
  ⌈(limit.burst + limit.delay + 1) / limit.zone.rate⌉

/-- The loop of `RateLimiter._validate`: raise `ValueError` on a duplicate
zone name; warn when `burst + delay + 1 > expiry * rate`. Returns the
emitted warnings in order. -/
def validateLoop : List (String × RateLimit) → List String → List ConfigWarning →
    Except String (List ConfigWarning)
  | [], _, ws => .ok ws.reverse
  | (lname, limit) :: rest, zones, ws =>
    if limit.zone.name ∈ zones then
      .error ("Multiple rate limits for zone " ++ limit.zone.name)
    else
      let ws1 :=
        if limit.burst + limit.delay + 1 > (limit.zone.expiry : ℚ) * limit.zone.rate
        then ConfigWarning.mk lname limit.zone.name limit.zone.expiry
          (recommendedExpiry limit) :: ws
        else ws
      validateLoop rest (limit.zone.name :: zones) ws1

/-- `RateLimiter._validate` on a configuration mapping. -/
def validateLimits (rls : List (String × RateLimit)) :
    Except String (List ConfigWarning) :=
  validateLoop rls [] []

/-- Lifecycle errors of `base.py`: `RuntimeError` from `configure` and
`request`, `ValueError` from `_validate`. -/
inductive LifecycleError where
  | alreadyConfigured
  | notConfigured
  | valueError (msg : String)
  deriving Repr, DecidableEq

/-- The `_configured` flag and `_rate_limits` table of a `RateLimiter`. -/
structure BaseLimiter where
  configured : Bool
  rateLimits : List (String × RateLimit)
  deriving Repr, DecidableEq

/-- A freshly constructed `RateLimiter`: `_configured = False`. -/
def baseInit : BaseLimiter := ⟨false, []⟩

/-- `RateLimiter.configure`: raise if already configured, validate, store the
limits, set the flag. Warnings are non-fatal and discarded here. -/
def baseConfigure (rl : BaseLimiter) (limits : List (String × RateLimit)) :
    Except LifecycleError BaseLimiter :=
  if rl.configured then .error .alreadyConfigured
  else
    match validateLimits limits with
    | .error e => .error (.valueError e)
    | .ok _ => .ok ⟨true, limits⟩

/-- The guard at the top of `RateLimiter.request`: raise if not yet
configured, else defer to the backend `_request`. -/
def baseRequestGuard (rl : BaseLimiter) : Except LifecycleError Unit :=
  if rl.configured then .ok () else .error .notConfigured

/-! ## State codecs (`codecs.py`)

`StructCodec` is genuinely bit-level: `struct.pack("<dd", t, v)` lays out the
two IEEE-754 64-bit patterns little-endian, without arithmetic on the values,
so it is modelled on states whose fields are the raw 64-bit patterns.
`struct.unpack("<dd", raw)` requires exactly 16 bytes (anything else raises
`struct.error`); `decode` first maps falsy input (`None` or zero-length
bytes) to absent.

`JsonCodec` serialises `{"t": timestamp, "v": value}` through the standard
`json` module. Python 3 `repr` of a finite float is the shortest string that
parses back to the identical double, and `json.loads` parses it to exactly
that double, so the byte serialisation of the structured value is modelled as
the identity and the codec as the construction and field lookup of the
object. -/

/-- A state as stored by `StructCodec`: the two raw IEEE-754 64-bit
patterns, each below `2 ^ 64`. -/
structure PackedState where
  timestamp : ℕ
  value : ℕ
  deriving Repr, DecidableEq

/-- Little-endian byte decomposition of a machine word of `w` bytes. -/
def leBytes : ℕ → ℕ → List ℕ
  | 0, _ => []
  | w + 1, n => n % 256 :: leBytes w (n / 256)

/-- Recomposition of a little-endian byte list. -/
def fromLeBytes : List ℕ → ℕ
  | [] => 0
  | b :: bs => b + 256 * fromLeBytes bs

/-- `StructCodec.encode`: `struct.pack("<dd", timestamp, value)`. -/
def structEncode (s : PackedState) : List ℕ :=
  leBytes 8 s.timestamp ++ leBytes 8 s.value

/-- `StructCodec.decode`: falsy input is absent, else
`struct.unpack("<dd", raw)` reads two little-endian 64-bit patterns. -/
def structDecode : Option (List ℕ) → Option PackedState
  | none => none
  | some bs =>
    if bs.length = 0 then none
    else some ⟨fromLeBytes (bs.take 8), fromLeBytes (bs.drop 8)⟩

/-- The JSON values the codec exchanges with the `json` module. -/
inductive JValue where
  | num (q : ℚ)
  | obj (fields : List (String × JValue))

/-- `JsonCodec.encode`: the object mapping `"t"` to the timestamp and `"v"`
to the value (`timestamp_key = 't'`, `value_key = 'v'`). -/
def jsonEncode (s : State) : JValue :=
  .obj [("t", .num s.timestamp), ("v", .num s.value)]

/-- `JsonCodec.decode`: falsy input is absent, else read `data["t"]` and
`data["v"]` from the parsed object. -/
def jsonDecode : Option JValue → Option State
  | none => none
  | some (.num _) => none
  | some (.obj fields) =>
    match List.lookup "t" fields, List.lookup "v" fields with
    | some (.num t), some (.num v) => some ⟨t, v⟩
    | _, _ => none

/-! ## Key format validation (`base.py`, `_validate_key_format`)

The model of `string.Formatter().parse`: a pass over the format string that
collects the replacement field names and fails (Python raises `ValueError`)
on a lone brace or an unterminated field. A field name runs until `!`, `:`
or the closing brace; a conversion is a single character after `!` and must
be followed by `:` or the closing brace; a format spec after `:` runs to the
matching close, counting nested braces. (Python additionally lets `!` and
`:` inside an index `[...]` be part of the name; such names contain `[` and
can never equal `zone` or `key`, so validation outcomes are unaffected.) -/

/-- Split a replacement field: the name runs until `!`, `:` or `}`. -/
def splitFieldName : List Char → List Char × List Char
  | [] => ([], [])
  | c :: cs =>
    if c = '!' ∨ c = ':' ∨ c = '\x7d' then ([], c :: cs)
    else
      let r := splitFieldName cs
      (c :: r.1, r.2)

/-- Scan a format spec to its closing brace, tracking nesting depth. -/
def scanSpec : List Char → ℕ → Option (List Char)
  | [], _ => none
  | c :: cs, depth =>
    if c = '\x7d' then (if depth = 0 then some cs else scanSpec cs (depth - 1))
    else if c = '\x7b' then scanSpec cs (depth + 1)
    else scanSpec cs depth

/-- Consume the remainder of a replacement field after its name: optionally
one conversion character introduced by `!`, optionally a format spec
introduced by `:`, then the closing brace. Returns the rest of the string. -/
def finishField : List Char → Option (List Char)
  | [] => none
  | c :: cs =>
    if c = '\x7d' then some cs
    else if c = ':' then scanSpec cs 0
    else if c = '!' then
      match cs with
      | [] => none
      | _ :: cs2 =>
        match cs2 with
        | [] => none
        | d :: cs3 =>
          if d = '\x7d' then some cs3
          else if d = ':' then scanSpec cs3 0
          else none
    else none

/-- The parse loop over the format string: `\x7b\x7b` and `\x7d\x7d` are
literal braces, a lone `\x7d` is an error, `\x7b` opens a replacement field.
Every step consumes at least one character, so the fuel argument, set to the
string length plus one, never runs out. -/
def parseFormatFuel : ℕ → List Char → Option (List (List Char))
  | 0, _ => none
  | _ + 1, [] => some []
  | fuel + 1, c :: cs =>
    if c = '\x7b' then
      match cs with
      | [] => none
      | d :: cs2 =>
        if d = '\x7b' then parseFormatFuel fuel cs2
        else
          let r := splitFieldName cs
          match finishField r.2 with
          | none => none
          | some rest2 => (parseFormatFuel fuel rest2).map fun ns => r.1 :: ns
    else if c = '\x7d' then
      match cs with
      | [] => none
      | d :: cs2 => if d = '\x7d' then parseFormatFuel fuel cs2 else none
    else parseFormatFuel fuel cs

/-- The replacement field names of a format string, in order of appearance,
as collected by `{ft[1] for ft in Formatter().parse(format_string)}` after
discarding the `None` entries of literal-only chunks. `none` models a
`ValueError` raised by the parser itself. -/
def parseFieldNames (s : String) : Option (List String) :=
  (parseFormatFuel (s.length + 1) s.toList).map (List.map fun l => String.mk l)

/-- `_validate_key_format`: parse the format, require that both `zone` and
`key` occur among the field names, and that no other field name occurs;
return the format string unchanged on success. -/
def validateKeyFormat (s : String) : Except String String :=
  match parseFieldNames s with
  | none => .error "ValueError: bad format string"
  | some names =>
    if !(names.contains "zone" && names.contains "key") then
      .error "Key format string must contain replacement fields zone and key"
    else if !(names.all fun n => n == "zone" || n == "key") then
      .error "Key format string can only contain replacement fields zone and key"
    else .ok s

/-! ### Codec round trips (C6) -/

/-- A `w`-byte little-endian decomposition has `w` bytes. -/
theorem leBytes_length (w : ℕ) : ∀ n, (leBytes w n).length = w := by
  induction w with
  | zero => intro n; rfl
  | succ w ih => intro n; simp [leBytes, ih]

/-- Recomposing the `w`-byte little-endian decomposition recovers the word
modulo `256 ^ w`. -/
theorem fromLeBytes_leBytes (w : ℕ) : ∀ n, fromLeBytes (leBytes w n) = n % 256 ^ w := by
  induction w with
  | zero => intro n; simp [leBytes, fromLeBytes, Nat.mod_one]
  | succ w ih =>
    intro n
    rw [leBytes, fromLeBytes, ih]
    rw [pow_succ, mul_comm (256 ^ w) 256, Nat.mod_mul]

/-- C6: codec round trips. The packed binary codec encodes a state as exactly
16 bytes, the little-endian IEEE-754 bit patterns of the timestamp followed
by those of the value, and decoding recovers the state exactly (a bijection
up to bit patterns); the JSON codec recovers every state from its encoded
object. -/
theorem C6_codec_round_trip (s : PackedState)
    (ht : s.timestamp < 2 ^ 64) (hv : s.value < 2 ^ 64) :
    structDecode (some (structEncode s)) = some s
    ∧ (structEncode s).length = 16
    ∧ structEncode s = leBytes 8 s.timestamp ++ leBytes 8 s.value
    ∧ ∀ st : State, jsonDecode (some (jsonEncode st)) = some st := by
  have h256 : (256 : ℕ) ^ 8 = 2 ^ 64 := by norm_num
  have hlen : (structEncode s).length = 16 := by
    simp [structEncode, leBytes_length]
  refine ⟨?_, hlen, rfl, fun st => rfl⟩
  rw [structDecode]
  rw [if_neg (by rw [hlen]; norm_num)]
  rw [structEncode]
  rw [List.take_left' (leBytes_length 8 s.timestamp),
    List.drop_left' (leBytes_length 8 s.timestamp)]
  rw [fromLeBytes_leBytes, fromLeBytes_leBytes, h256,
    Nat.mod_eq_of_lt ht, Nat.mod_eq_of_lt hv]

/-- Witness for C6: the round trip at the concrete bit patterns (1, 2). -/
theorem C6_codec_round_trip_witness :
    structDecode (some (structEncode ⟨1, 2⟩)) = some ⟨1, 2⟩
    ∧ (structEncode ⟨1, 2⟩).length = 16 := by
  have h := C6_codec_round_trip ⟨1, 2⟩ (by norm_num) (by norm_num)
  exact ⟨h.1, h.2.1⟩

/-! ### Configuration validation (C7) -/

/-- Full characterisation of the `_validate` loop on configurations without
duplicate zone names: it succeeds and the emitted warnings are exactly the
limits violating `expiry * rate >= burst + delay + 1`, in order, each naming
the recommended minimum expiry. -/
theorem validateLoop_ok :
    ∀ (rls : List (String × RateLimit)) (zones : List String)
      (ws : List ConfigWarning),
      (∀ p ∈ rls, p.2.zone.name ∉ zones) →
      (rls.map fun p => p.2.zone.name).Nodup →
      validateLoop rls zones ws =
        .ok (ws.reverse ++
          (rls.filter fun p =>
            decide (p.2.burst + p.2.delay + 1 >
              (p.2.zone.expiry : ℚ) * p.2.zone.rate)).map
            fun p => ConfigWarning.mk p.1 p.2.zone.name p.2.zone.expiry
              (recommendedExpiry p.2)) := by
  intro rls
  induction rls with
  | nil => intro zones ws _ _; simp [validateLoop]
  | cons hd rest ih =>
    intro zones ws hz hnd
    obtain ⟨lname, limit⟩ := hd
    rw [validateLoop]
    rw [if_neg (hz (lname, limit) (by simp))]
    have hz2 : ∀ p ∈ rest, p.2.zone.name ∉ limit.zone.name :: zones := by
      intro p hp
      simp only [List.mem_cons, not_or]
      constructor
      · intro heq
        have : limit.zone.name ∈ rest.map fun p => p.2.zone.name := by
          rw [← heq]
          exact List.mem_map_of_mem _ hp
        rw [List.map_cons] at hnd
        exact (List.nodup_cons.mp hnd).1 this
      · exact hz p (List.mem_cons_of_mem _ hp)
    have hnd2 : (rest.map fun p => p.2.zone.name).Nodup := by
      rw [List.map_cons] at hnd
      exact (List.nodup_cons.mp hnd).2
    by_cases hc : limit.burst + limit.delay + 1 >
        (limit.zone.expiry : ℚ) * limit.zone.rate
    · rw [if_pos hc, ih _ _ hz2 hnd2]
      rw [List.filter_cons_of_pos (by simpa using hc)]
      simp
    · rw [if_neg hc, ih _ _ hz2 hnd2]
      rw [List.filter_cons_of_neg (by simpa using hc)]

/-- C7: for a configuration with distinct zone names and positive zone rates,
validation succeeds (warnings are not errors) and emits one warning per limit
with `burst + delay + 1 > expiry * rate` — and none for the others — each
naming the recommended minimum expiry `ceil((burst + delay + 1) / rate)`. -/
theorem C7_expiry_warning (rls : List (String × RateLimit))
    (hnd : (rls.map fun p => p.2.zone.name).Nodup)
    (hrate : ∀ p ∈ rls, 0 < p.2.zone.rate) :
    validateLimits rls =
      .ok ((rls.filter fun p =>
          decide (p.2.burst + p.2.delay + 1 >
            (p.2.zone.expiry : ℚ) * p.2.zone.rate)).map
        fun p => ConfigWarning.mk p.1 p.2.zone.name p.2.zone.expiry
          ⌈(p.2.burst + p.2.delay + 1) / p.2.zone.rate⌉) := by
  have h := validateLoop_ok rls [] [] (by simp) hnd
  rw [validateLimits, h]
  rfl

/-- Witness for C7: the configuration of `test_expiry_warning` — zone `z1`
with rate 2 and expiry 5, limit burst 4 delay 6: `4 + 6 + 1 = 11 > 10`, so a
single warning recommending `ceil(11 / 2) = 6` is emitted. -/
theorem C7_expiry_warning_witness :
    validateLimits [("k1", ⟨⟨"z1", 2, 5⟩, 4, 6⟩)] =
      .ok [⟨"k1", "z1", 5, 6⟩] := by
  have h := C7_expiry_warning [("k1", ⟨⟨"z1", 2, 5⟩, 4, 6⟩)]
    (by simp) (by intro p hp; simp at hp; rw [hp]; norm_num)
  refine h.trans ?_
  simp only [List.filter, List.map]
  norm_num
  rw [Int.ceil_eq_iff]
  constructor <;> norm_num

/-! ### Key format validation (C8) -/

/-- C8: `_validate_key_format` succeeds exactly when the format string
parses and its set of replacement field names is exactly zone and key.
Concretely: the default format and formats with conversions or repeated
fields are accepted; a missing field, an extra named field, a positional
field and an auto-numbered field are each rejected. -/
theorem C8_key_format_validation :
    (∀ s : String, (∃ t, validateKeyFormat s = .ok t) ↔
      ∃ names, parseFieldNames s = some names
        ∧ "zone" ∈ names ∧ "key" ∈ names
        ∧ ∀ n ∈ names, n = "zone" ∨ n = "key")
    ∧ validateKeyFormat "redbucket:\x7bzone\x7d:\x7bkey\x7d"
        = .ok "redbucket:\x7bzone\x7d:\x7bkey\x7d"
    ∧ validateKeyFormat "\x7bzone!r\x7d\x7bkey\x7d"
        = .ok "\x7bzone!r\x7d\x7bkey\x7d"
    ∧ validateKeyFormat "\x7bzone\x7d\x7bkey\x7d\x7bzone\x7d"
        = .ok "\x7bzone\x7d\x7bkey\x7d\x7bzone\x7d"
    ∧ validateKeyFormat "\x7bzone\x7d no key"
        = .error "Key format string must contain replacement fields zone and key"
    ∧ validateKeyFormat "\x7bzone\x7d\x7bkey\x7d\x7bextra\x7d"
        = .error "Key format string can only contain replacement fields zone and key"
    ∧ validateKeyFormat "\x7bzone\x7d\x7bkey\x7d\x7b0\x7d"
        = .error "Key format string can only contain replacement fields zone and key"
    ∧ validateKeyFormat "\x7bzone\x7d\x7bkey\x7d\x7b\x7d"
        = .error "Key format string can only contain replacement fields zone and key"
    ∧ validateKeyFormat "invalid \x7b"
        = .error "ValueError: bad format string" := by
  refine ⟨?_, by rfl, by rfl, by rfl, by rfl, by rfl, by rfl, by rfl, by rfl⟩
  intro s
  rw [validateKeyFormat]
  cases h : parseFieldNames s with
  | none =>
    simp only [h]
    constructor
    · rintro ⟨t, ht⟩
      exact absurd ht (by simp)
    · rintro ⟨names, hn, _⟩
      exact absurd hn (by simp)
  | some names =>
    simp only [h]
    have hcz : ∀ a : String, (names.contains a = true) ↔ a ∈ names := by
      intro a
      have hce : names.contains a = List.elem a names := rfl
      rw [hce, List.elem_iff]
    have hmem : ((names.contains "zone" && names.contains "key") = true)
        ↔ ("zone" ∈ names ∧ "key" ∈ names) := by
      rw [Bool.and_eq_true, hcz, hcz]
    have hallIff : ((names.all fun n => n == "zone" || n == "key") = true)
        ↔ (∀ n ∈ names, n = "zone" ∨ n = "key") := by
      simp [List.all_eq_true]
    by_cases hzk : (names.contains "zone" && names.contains "key") = true
    · have hbang : (!(names.contains "zone" && names.contains "key")) = false := by
        rw [hzk]; rfl
      rw [if_neg (by rw [hbang]; exact Bool.false_ne_true)]
      by_cases hall : (names.all fun n => n == "zone" || n == "key") = true
      · have hbang2 : (!(names.all fun n => n == "zone" || n == "key")) = false := by
          rw [hall]; rfl
        rw [if_neg (by rw [hbang2]; exact Bool.false_ne_true)]
        constructor
        · intro _
          exact ⟨names, rfl, (hmem.mp hzk).1, (hmem.mp hzk).2, hallIff.mp hall⟩
        · intro _
          exact ⟨s, rfl⟩
      · have hfalse : (names.all fun n => n == "zone" || n == "key") = false :=
          Bool.eq_false_iff.mpr hall
        rw [if_pos (by rw [hfalse]; rfl)]
        constructor
        · rintro ⟨t, ht⟩
          exact absurd ht (by simp)
        · rintro ⟨names2, hn2, _, _, hall3⟩
          have heq : names = names2 := Option.some.inj hn2
          subst heq
          exact absurd (hallIff.mpr hall3) hall
    · have hfalse : (names.contains "zone" && names.contains "key") = false :=
        Bool.eq_false_iff.mpr hzk
      rw [if_pos (by rw [hfalse]; rfl)]
      constructor
      · rintro ⟨t, ht⟩
        exact absurd ht (by simp)
      · rintro ⟨names2, hn2, hzone, hkey, _⟩
        have heq : names = names2 := Option.some.inj hn2
        subst heq
        exact absurd (hmem.mpr ⟨hzone, hkey⟩) hzk

/-! ### Shared lemmas about the backends -/

/-- Unfolding of the per-limit step through the named quantities. -/
theorem limitStep_unfold (limit : RateLimit) (s0 : Option State) (t1 : ℚ) :
    limitStep limit s0 t1 =
      if headroom limit s0 t1 < -limit.delay then .reject
      else .accept
        (if headroom limit s0 t1 < 0 then
          -headroom limit s0 t1 / limit.zone.rate
         else 0)
        ⟨t1, stepValue limit s0 t1⟩ := rfl

/-- The per-limit step rejects exactly when the headroom falls below the
delay band. -/
theorem limitStep_eq_reject_iff (limit : RateLimit) (s0 : Option State)
    (t1 : ℚ) :
    limitStep limit s0 t1 = .reject ↔
      headroom limit s0 t1 < -limit.delay := by
  rw [limitStep_unfold]
  by_cases h : headroom limit s0 t1 < -limit.delay
  · rw [if_pos h]
    simp [h]
  · rw [if_neg h]
    simp [h]

/-- The final delay is at least the initial accumulator. -/
theorem evalLimits_some_le (t1 : ℚ) (pairs : List (RateLimit × Option State)) :
    ∀ d0 d sts, evalLimits t1 pairs d0 = some (d, sts) → d0 ≤ d := by
  induction pairs with
  | nil =>
    intro d0 d sts h
    rw [evalLimits] at h
    cases h
    exact le_rfl
  | cons hd rest ih =>
    obtain ⟨limit, s0⟩ := hd
    intro d0 d sts h
    rw [evalLimits_cons] at h
    by_cases hrej : headroom limit s0 t1 < -limit.delay
    · rw [if_pos hrej] at h
      exact absurd h (by simp)
    · rw [if_neg hrej] at h
      cases h2 : evalLimits t1 rest
          (if headroom limit s0 t1 < 0 then
            max d0 (-headroom limit s0 t1 / limit.zone.rate)
           else d0) with
      | none => rw [h2] at h; exact absurd h (by simp)
      | some r =>
        obtain ⟨dd, states⟩ := r
        rw [h2] at h
        cases h
        refine le_trans ?_ (ih _ _ _ h2)
        split
        · exact le_max_left _ _
        · exact le_rfl

/-- An absent prior state yields `v1 = 1`. -/
theorem stepValue_none (limit : RateLimit) (t1 : ℚ) :
    stepValue limit none t1 = 1 := by
  simp [stepValue, priorState]

/-- An absent prior state yields headroom equal to the burst. -/
theorem headroom_none (limit : RateLimit) (t1 : ℚ) :
    headroom limit none t1 = limit.burst := by
  simp [headroom, stepValue_none]

/-- A running maximum over zeros starting at zero stays zero. -/
theorem foldl_max_zero (l : List ℚ) (h : ∀ x ∈ l, x = 0) :
    List.foldl max 0 l = 0 := by
  induction l with
  | nil => rfl
  | cons hd rest ih =>
    rw [List.foldl_cons, h hd (by simp), max_self]
    exact ih fun x hx => h x (List.mem_cons_of_mem _ hx)

/-- `txFn` on a request with a rejecting limit: rejected response, no
writes. -/
theorem txFn_reject (items : List (String × RateLimit × Option State))
    (t1 : ℚ) (h : ∃ i ∈ items, headroom i.2.1 i.2.2 t1 < -i.2.1.delay) :
    txFn items t1 = (⟨false, none⟩, []) := by
  rw [txFn]
  have hn : evalLimits t1 (items.map fun i => (i.2.1, i.2.2)) 0 = none := by
    rw [evalLimits_eq_none_iff]
    obtain ⟨i, hi, hr⟩ := h
    exact ⟨(i.2.1, i.2.2), List.mem_map_of_mem _ hi, hr⟩
  rw [hn]

/-- `txFn` on a request where every limit accepts: accepted response with
the running maximum of the per-limit delays, and one `SETEX` write per limit
carrying the proposed state `(t1, v1_i)` and the zone's expiry. -/
theorem txFn_accept (items : List (String × RateLimit × Option State))
    (t1 : ℚ) (h : ∀ i ∈ items, ¬ headroom i.2.1 i.2.2 t1 < -i.2.1.delay) :
    txFn items t1 =
      (⟨true, some (List.foldl max 0
          (items.map fun i => perLimitDelay i.2.1 i.2.2 t1))⟩,
        items.map fun i =>
          (i.1, i.2.1.zone.expiry, ⟨t1, stepValue i.2.1 i.2.2 t1⟩)) := by
  have he : evalLimits t1 (items.map fun i => (i.2.1, i.2.2)) 0 =
      some (List.foldl max 0
          (items.map fun i => perLimitDelay i.2.1 i.2.2 t1),
        items.map fun i => State.mk t1 (stepValue i.2.1 i.2.2 t1)) := by
    rw [evalLimits_eq_some t1 _ 0 (by
      intro p hp
      obtain ⟨i, hi, hpe⟩ := List.mem_map.mp hp
      rw [← hpe]
      exact h i hi)]
    rw [delayAcc_eq_foldl _ _ _ le_rfl]
    rw [List.map_map, List.map_map]
    rfl
  have hzip : List.zipWith (fun (i : String × RateLimit × Option State) st =>
      (i.1, i.2.1.zone.expiry, st)) items
        (items.map fun i => State.mk t1 (stepValue i.2.1 i.2.2 t1)) =
      items.map fun i =>
        (i.1, i.2.1.zone.expiry, State.mk t1 (stepValue i.2.1 i.2.2 t1)) := by
    rw [List.zipWith_map_right, List.zipWith_same]
  rw [txFn, he]
  exact congrArg (Prod.mk _) hzip

/-- `luaScriptRun` on a request with a rejecting limit: false result, no
writes. -/
theorem luaScriptRun_reject (items : List (String × RateLimit × Option State))
    (t1 : ℚ) (h : ∃ i ∈ items, headroom i.2.1 i.2.2 t1 < -i.2.1.delay) :
    luaScriptRun items t1 = (none, []) := by
  rw [luaScriptRun]
  have hn : evalLimits t1 (items.map fun i => (i.2.1, i.2.2)) 0 = none := by
    rw [evalLimits_eq_none_iff]
    obtain ⟨i, hi, hr⟩ := h
    exact ⟨(i.2.1, i.2.2), List.mem_map_of_mem _ hi, hr⟩
  rw [hn]

/-- `luaScriptRun` where every limit accepts, analogous to `txFn_accept`. -/
theorem luaScriptRun_accept (items : List (String × RateLimit × Option State))
    (t1 : ℚ) (h : ∀ i ∈ items, ¬ headroom i.2.1 i.2.2 t1 < -i.2.1.delay) :
    luaScriptRun items t1 =
      (some (List.foldl max 0
          (items.map fun i => perLimitDelay i.2.1 i.2.2 t1)),
        items.map fun i =>
          (i.1, i.2.1.zone.expiry, ⟨t1, stepValue i.2.1 i.2.2 t1⟩)) := by
  have he : evalLimits t1 (items.map fun i => (i.2.1, i.2.2)) 0 =
      some (List.foldl max 0
          (items.map fun i => perLimitDelay i.2.1 i.2.2 t1),
        items.map fun i => State.mk t1 (stepValue i.2.1 i.2.2 t1)) := by
    rw [evalLimits_eq_some t1 _ 0 (by
      intro p hp
      obtain ⟨i, hi, hpe⟩ := List.mem_map.mp hp
      rw [← hpe]
      exact h i hi)]
    rw [delayAcc_eq_foldl _ _ _ le_rfl]
    rw [List.map_map, List.map_map]
    rfl
  have hzip : List.zipWith (fun (i : String × RateLimit × Option State) st =>
      (i.1, i.2.1.zone.expiry, st)) items
        (items.map fun i => State.mk t1 (stepValue i.2.1 i.2.2 t1)) =
      items.map fun i =>
        (i.1, i.2.1.zone.expiry, State.mk t1 (stepValue i.2.1 i.2.2 t1)) := by
    rw [List.zipWith_map_right, List.zipWith_same]
  rw [luaScriptRun, he]
  exact congrArg (Prod.mk _) hzip

/-! ### In-memory backend lemmas -/

/-- The request list keeps the limit names and keys in order, and each entry
is the one looked up in the `rate_limits` dict. -/
theorem inMemoryReqs_spec (rl : InMemoryLimiter) :
    ∀ (keys : List (String × String)) (reqs : List (String × MemEntry × String)),
      inMemoryReqs rl keys = .ok reqs →
      (reqs.map fun r => (r.1, r.2.2)) = keys
      ∧ ∀ r ∈ reqs, List.lookup r.1 rl.rateLimits = some r.2.1 := by
  intro keys
  induction keys with
  | nil =>
    intro reqs h
    rw [inMemoryReqs] at h
    cases h
    exact ⟨rfl, by simp⟩
  | cons hd rest ih =>
    obtain ⟨lname, key⟩ := hd
    intro reqs h
    rw [inMemoryReqs] at h
    cases hl : List.lookup lname rl.rateLimits with
    | none => rw [hl] at h; exact absurd h (by simp)
    | some e =>
      rw [hl] at h
      cases hr : inMemoryReqs rl rest with
      | error msg => rw [hr] at h; exact absurd h (by simp [Except.map])
      | ok reqs2 =>
        rw [hr] at h
        simp only [Except.map] at h
        cases h
        obtain ⟨ih1, ih2⟩ := ih reqs2 hr
        refine ⟨by simp [ih1], ?_⟩
        intro r hr2
        rcases List.mem_cons.mp hr2 with h1 | h1
        · subst h1
          exact hl
        · exact ih2 r h1

/-- Looking up the key just set in a Python dict yields the new value. -/
theorem lookup_assocSet_self {α : Type} (m : List (String × α)) (k : String)
    (v : α) : List.lookup k (assocSet m k v) = some v := by
  induction m with
  | nil => simp [assocSet, List.lookup]
  | cons hd rest ih =>
    obtain ⟨k2, v2⟩ := hd
    rw [assocSet]
    by_cases h : k2 = k
    · subst h
      simp [List.lookup]
    · rw [if_neg h]
      have hb : (k == k2) = false :=
        beq_eq_false_iff_ne.mpr fun he => h he.symm
      simp [List.lookup, hb, ih]

/-- Setting one dict key leaves the other keys unchanged. -/
theorem lookup_assocSet_ne {α : Type} (m : List (String × α)) (k k2 : String)
    (v : α) (h : k2 ≠ k) :
    List.lookup k2 (assocSet m k v) = List.lookup k2 m := by
  induction m with
  | nil =>
    have hb : (k2 == k) = false := beq_eq_false_iff_ne.mpr h
    simp [assocSet, List.lookup, hb]
  | cons hd rest ih =>
    obtain ⟨k3, v3⟩ := hd
    rw [assocSet]
    by_cases h3 : k3 = k
    · subst h3
      have hb : (k2 == k3) = false := beq_eq_false_iff_ne.mpr h
      simp [List.lookup, hb]
    · rw [if_neg h3]
      cases hb : k2 == k3 with
      | true => simp [List.lookup, hb]
      | false => simp [List.lookup, hb, ih]

/-- The entry of the written limit name gets its state dict extended by
`applyWrite`. -/
theorem lookup_applyWrite_self (rl : InMemoryLimiter) (lname key : String)
    (st : State) :
    List.lookup lname (applyWrite rl lname key st).rateLimits =
      (List.lookup lname rl.rateLimits).map fun e =>
        MemEntry.mk e.limit (assocSet e.state key st) := by
  obtain ⟨l⟩ := rl
  simp only [applyWrite]
  induction l with
  | nil => simp [List.lookup]
  | cons hd rest ih =>
    obtain ⟨k2, e2⟩ := hd
    by_cases h : k2 = lname
    · subst h
      simp [List.lookup]
    · have hb : (lname == k2) = false :=
        beq_eq_false_iff_ne.mpr fun he => h he.symm
      simp only [List.map_cons, if_neg h, List.lookup, hb]
      exact ih

/-- `applyWrite` leaves the entries of other limit names unchanged. -/
theorem lookup_applyWrite_ne (rl : InMemoryLimiter) (lname l2 key : String)
    (st : State) (h : l2 ≠ lname) :
    List.lookup l2 (applyWrite rl lname key st).rateLimits =
      List.lookup l2 rl.rateLimits := by
  obtain ⟨l⟩ := rl
  simp only [applyWrite]
  induction l with
  | nil => simp [List.lookup]
  | cons hd rest ih =>
    obtain ⟨k2, e2⟩ := hd
    simp only [List.map_cons]
    cases hb : l2 == k2 with
    | true =>
      have hek : l2 = k2 := eq_of_beq hb
      have hk2 : ¬ (k2 = lname) := by rw [← hek]; exact h
      simp [List.lookup, hb, hk2]
    | false => simp [List.lookup, hb, ih]

/-- The commit loop does not touch limit names it does not write. -/
theorem writeBack_lookup_of_notmem :
    ∀ (ws : List ((String × String) × State)) (rl : InMemoryLimiter)
      (l2 : String), l2 ∉ ws.map (fun w => w.1.1) →
      List.lookup l2 (writeBack rl ws).rateLimits =
        List.lookup l2 rl.rateLimits := by
  intro ws
  induction ws with
  | nil => intro rl l2 _; rfl
  | cons w0 rest ih =>
    intro rl l2 hmem
    obtain ⟨⟨lname, key⟩, st⟩ := w0
    simp only [List.map_cons, List.mem_cons, not_or] at hmem
    rw [writeBack]
    rw [ih _ _ hmem.2]
    exact lookup_applyWrite_ne rl lname l2 key st hmem.1

/-- With distinct limit names, the commit loop leaves each written entry with
exactly its own key updated. -/
theorem writeBack_lookup :
    ∀ (ws : List ((String × String) × State)) (rl : InMemoryLimiter),
      (ws.map fun w => w.1.1).Nodup →
      ∀ w ∈ ws, List.lookup w.1.1 (writeBack rl ws).rateLimits =
        (List.lookup w.1.1 rl.rateLimits).map fun e =>
          MemEntry.mk e.limit (assocSet e.state w.1.2 w.2) := by
  intro ws
  induction ws with
  | nil => intro rl _ w hw; exact absurd hw (by simp)
  | cons w0 rest ih =>
    intro rl hnd w hw
    obtain ⟨⟨lname, key⟩, st⟩ := w0
    rw [List.map_cons, List.nodup_cons] at hnd
    rw [writeBack]
    rcases List.mem_cons.mp hw with h1 | h1
    · subst h1
      rw [writeBack_lookup_of_notmem rest _ _ hnd.1]
      exact lookup_applyWrite_self rl lname key st
    · rw [ih _ hnd.2 w h1]
      have hmm : w.1.1 ∈ rest.map fun w => w.1.1 :=
        List.mem_map_of_mem _ h1
      have hne : w.1.1 ≠ lname := by
        intro he
        rw [he] at hmm
        exact hnd.1 hmm
      rw [lookup_applyWrite_ne rl lname w.1.1 key st hne]

/-- The in-memory request on a rejecting request list: rejected response,
limiter unchanged. -/
theorem inMemoryRequest_of_reject (rl : InMemoryLimiter)
    (keys : List (String × String)) (t1 : ℚ)
    (reqs : List (String × MemEntry × String))
    (hreqs : inMemoryReqs rl keys = .ok reqs)
    (hrej : ∃ p ∈ inMemoryPairs reqs, headroom p.1 p.2 t1 < -p.1.delay) :
    inMemoryRequest rl keys t1 = .ok (⟨false, none⟩, rl) := by
  rw [inMemoryRequest, hreqs]
  simp only [Except.map]
  rw [inMemoryEval, (evalLimits_eq_none_iff t1 _ 0).mpr hrej]

/-- The in-memory request when every referenced limit accepts: accepted
response with the running maximum of the per-limit delays, and each
referenced (limit, key) entry now stores the proposed state `(t1, v1_i)`. -/
theorem inMemoryRequest_of_accept (rl : InMemoryLimiter)
    (keys : List (String × String)) (t1 : ℚ)
    (reqs : List (String × MemEntry × String))
    (hreqs : inMemoryReqs rl keys = .ok reqs)
    (hacc : ∀ p ∈ inMemoryPairs reqs, ¬ headroom p.1 p.2 t1 < -p.1.delay)
    (hnd : (keys.map fun k => k.1).Nodup) :
    ∃ rl2, inMemoryRequest rl keys t1 =
        .ok (⟨true, some (List.foldl max 0
          ((inMemoryPairs reqs).map fun p => perLimitDelay p.1 p.2 t1))⟩, rl2)
      ∧ ∀ r ∈ reqs,
          (List.lookup r.1 rl2.rateLimits).bind
              (fun e => List.lookup r.2.2 e.state)
            = some ⟨t1, stepValue r.2.1.limit
                (List.lookup r.2.2 r.2.1.state) t1⟩ := by
  have heval : evalLimits t1 (inMemoryPairs reqs) 0 =
      some (List.foldl max 0
          ((inMemoryPairs reqs).map fun p => perLimitDelay p.1 p.2 t1),
        (inMemoryPairs reqs).map fun p => State.mk t1 (stepValue p.1 p.2 t1)) := by
    rw [evalLimits_eq_some t1 _ 0 hacc]
    rw [delayAcc_eq_foldl _ _ _ le_rfl]
  have hstates : (inMemoryPairs reqs).map
      (fun p => State.mk t1 (stepValue p.1 p.2 t1)) =
      reqs.map fun r => State.mk t1
        (stepValue r.2.1.limit (List.lookup r.2.2 r.2.1.state) t1) := by
    rw [inMemoryPairs, List.map_map]
    rfl
  have hws : (reqs.map fun r => (r.1, r.2.2)).zip
      ((inMemoryPairs reqs).map fun p => State.mk t1 (stepValue p.1 p.2 t1)) =
      reqs.map fun r => ((r.1, r.2.2), State.mk t1
        (stepValue r.2.1.limit (List.lookup r.2.2 r.2.1.state) t1)) := by
    rw [hstates, List.zip_map']
  obtain ⟨hkeys, hlookups⟩ := inMemoryReqs_spec rl keys reqs hreqs
  have hlnames : (reqs.map fun r => ((r.1, r.2.2), State.mk t1
        (stepValue r.2.1.limit (List.lookup r.2.2 r.2.1.state) t1))).map
      (fun w => w.1.1) = keys.map fun k => k.1 := by
    rw [List.map_map, ← hkeys, List.map_map]
    rfl
  have hnd2 : ((reqs.map fun r => ((r.1, r.2.2), State.mk t1
        (stepValue r.2.1.limit (List.lookup r.2.2 r.2.1.state) t1))).map
      (fun w => w.1.1)).Nodup := by
    rw [hlnames]
    exact hnd
  refine ⟨writeBack rl (reqs.map fun r => ((r.1, r.2.2), State.mk t1
      (stepValue r.2.1.limit (List.lookup r.2.2 r.2.1.state) t1))), ?_, ?_⟩
  · rw [inMemoryRequest, hreqs]
    simp only [Except.map]
    rw [inMemoryEval, heval]
    have hcommit : writeBack rl ((reqs.map fun r => (r.1, r.2.2)).zip
        ((inMemoryPairs reqs).map fun p =>
          State.mk t1 (stepValue p.1 p.2 t1))) =
        writeBack rl (reqs.map fun r => ((r.1, r.2.2), State.mk t1
          (stepValue r.2.1.limit (List.lookup r.2.2 r.2.1.state) t1))) := by
      rw [hws]
    exact congrArg Except.ok (congrArg (Prod.mk _) hcommit)
  · intro r hr
    have hw : ((r.1, r.2.2), State.mk t1
        (stepValue r.2.1.limit (List.lookup r.2.2 r.2.1.state) t1)) ∈
        reqs.map fun r => ((r.1, r.2.2), State.mk t1
          (stepValue r.2.1.limit (List.lookup r.2.2 r.2.1.state) t1)) :=
      List.mem_map_of_mem _ hr
    have hlk := writeBack_lookup _ rl hnd2 _ hw
    rw [hlk]
    rw [hlookups r hr]
    exact lookup_assocSet_self _ _ _

/-! ### Atomicity of rejection (C2) -/

/-- C2: if the per-limit evaluation of any referenced limit rejects, the
whole request returns not-accepted and no state is written: the transactional
and scripted Redis backends issue zero `SETEX` writes, and the in-memory
backend returns its state maps unchanged — including the entries of limits
that would individually have accepted. -/
theorem C2_reject_atomicity :
    (∀ (cfg : RedisConfig) (keys : List (String × String))
      (store : String → Option State) (t1 : ℚ)
      (rkls : List (String × RateLimit)),
      gatherLimits cfg keys = .ok rkls →
      (∃ i ∈ rkls, limitStep i.2 (store i.1) t1 = .reject) →
      transactionalRequest cfg keys store t1
          = .ok (⟨false, none⟩, rkls.map (·.1), [])
      ∧ scriptRequest cfg keys store t1
          = .ok (⟨false, none⟩, rkls.map (·.1), []))
    ∧ (∀ (rl : InMemoryLimiter) (keys : List (String × String)) (t1 : ℚ)
        (reqs : List (String × MemEntry × String)),
        inMemoryReqs rl keys = .ok reqs →
        (∃ p ∈ inMemoryPairs reqs, limitStep p.1 p.2 t1 = .reject) →
        inMemoryRequest rl keys t1 = .ok (⟨false, none⟩, rl)) := by
  constructor
  · intro cfg keys store t1 rkls hg hrej
    by_cases hk : keys = []
    · subst hk
      rw [gatherLimits] at hg
      cases hg
      obtain ⟨i, hi, _⟩ := hrej
      exact absurd hi (by simp)
    · have hitems : ∃ i ∈ rkls.map fun rkl => (rkl.1, rkl.2, store rkl.1),
          headroom i.2.1 i.2.2 t1 < -i.2.1.delay := by
        obtain ⟨i, hi, hr⟩ := hrej
        exact ⟨(i.1, i.2, store i.1), List.mem_map_of_mem _ hi,
          (limitStep_eq_reject_iff _ _ _).mp hr⟩
      have htx := txFn_reject (rkls.map fun rkl => (rkl.1, rkl.2, store rkl.1))
        t1 hitems
      have hlua := luaScriptRun_reject
        (rkls.map fun rkl => (rkl.1, rkl.2, store rkl.1)) t1 hitems
      constructor
      · simp only [transactionalRequest, if_neg hk, hg, htx]
      · simp only [scriptRequest, if_neg hk, hg, hlua]
  · intro rl keys t1 reqs hreqs h
    refine inMemoryRequest_of_reject rl keys t1 reqs hreqs ?_
    obtain ⟨p, hp, hr⟩ := h
    exact ⟨p, hp, (limitStep_eq_reject_iff _ _ _).mp hr⟩

/-- Witness for C2: one limit (rate 2, burst 0, delay 0) whose key holds
state `(100, 1)`, evaluated at `t1 = 100.3`: the limit rejects, so every
backend rejects the whole request without writing. -/
theorem C2_reject_atomicity_witness :
    transactionalRequest
        ⟨[("k1", ⟨⟨"z1", 2, 60⟩, 0, 0⟩)], defaultRedisKey⟩
        [("k1", "foo")]
        (fun k => if k = "redbucket:z1:foo" then some ⟨100, 1⟩ else none)
        (100 + 3/10)
      = .ok (⟨false, none⟩, ["redbucket:z1:foo"], [])
    ∧ inMemoryRequest
        ⟨[("k1", ⟨⟨⟨"z1", 2, 60⟩, 0, 0⟩, [("foo", ⟨100, 1⟩)]⟩)]⟩
        [("k1", "foo")] (100 + 3/10)
      = .ok (⟨false, none⟩,
          ⟨[("k1", ⟨⟨⟨"z1", 2, 60⟩, 0, 0⟩, [("foo", ⟨100, 1⟩)]⟩)]⟩) := by
  have hrej : limitStep ⟨⟨"z1", 2, 60⟩, 0, 0⟩ (some ⟨100, 1⟩) (100 + 3/10)
      = .reject := by
    rw [limitStep_unfold]
    rw [if_pos (by norm_num [headroom, stepValue, priorState])]
  constructor
  · have h := C2_reject_atomicity.1
      ⟨[("k1", ⟨⟨"z1", 2, 60⟩, 0, 0⟩)], defaultRedisKey⟩
      [("k1", "foo")]
      (fun k => if k = "redbucket:z1:foo" then some ⟨100, 1⟩ else none)
      (100 + 3/10)
      [("redbucket:z1:foo", ⟨⟨"z1", 2, 60⟩, 0, 0⟩)]
      (by rfl)
      ⟨("redbucket:z1:foo", ⟨⟨"z1", 2, 60⟩, 0, 0⟩), by simp, by
        show limitStep ⟨⟨"z1", 2, 60⟩, 0, 0⟩
          (if ("redbucket:z1:foo" : String) = "redbucket:z1:foo"
            then some ⟨100, 1⟩ else none) (100 + 3/10) = .reject
        rw [if_pos rfl]
        exact hrej⟩
    exact h.1
  · exact C2_reject_atomicity.2
      ⟨[("k1", ⟨⟨⟨"z1", 2, 60⟩, 0, 0⟩, [("foo", ⟨100, 1⟩)]⟩)]⟩
      [("k1", "foo")] (100 + 3/10)
      [("k1", ⟨⟨⟨"z1", 2, 60⟩, 0, 0⟩, [("foo", ⟨100, 1⟩)]⟩, "foo")]
      (by rfl)
      ⟨(⟨⟨"z1", 2, 60⟩, 0, 0⟩, some ⟨100, 1⟩), by
        show _ ∈ inMemoryPairs _
        rw [inMemoryPairs]
        simp [List.lookup], hrej⟩

/-! ### Combination of accepting limits (C3) -/

/-- C3: when every referenced limit accepts, the request is accepted with
delay `max(0, delay_1, ..., delay_N)` (the running maximum over the per-limit
delays, starting from 0), and the proposed new state `(t1, v1_i)` is written
for every referenced key: the Redis backends issue exactly one `SETEX` per
key with the zone's expiry, and the in-memory backend stores the new state
under every referenced (limit, key). -/
theorem C3_accept_combination :
    (∀ (cfg : RedisConfig) (keys : List (String × String))
      (store : String → Option State) (t1 : ℚ)
      (rkls : List (String × RateLimit)),
      gatherLimits cfg keys = .ok rkls →
      (∀ i ∈ rkls, limitStep i.2 (store i.1) t1 ≠ .reject) →
      transactionalRequest cfg keys store t1 = .ok
        (⟨true, some (List.foldl max 0
            (rkls.map fun i => perLimitDelay i.2 (store i.1) t1))⟩,
          rkls.map (·.1),
          rkls.map fun i =>
            (i.1, i.2.zone.expiry, ⟨t1, stepValue i.2 (store i.1) t1⟩))
      ∧ scriptRequest cfg keys store t1 = .ok
        (⟨true, some (List.foldl max 0
            (rkls.map fun i => perLimitDelay i.2 (store i.1) t1))⟩,
          rkls.map (·.1),
          rkls.map fun i =>
            (i.1, i.2.zone.expiry, ⟨t1, stepValue i.2 (store i.1) t1⟩)))
    ∧ (∀ (rl : InMemoryLimiter) (keys : List (String × String)) (t1 : ℚ)
        (reqs : List (String × MemEntry × String)),
        inMemoryReqs rl keys = .ok reqs →
        (∀ p ∈ inMemoryPairs reqs, limitStep p.1 p.2 t1 ≠ .reject) →
        (keys.map fun k => k.1).Nodup →
        ∃ rl2, inMemoryRequest rl keys t1 =
            .ok (⟨true, some (List.foldl max 0
              ((inMemoryPairs reqs).map fun p => perLimitDelay p.1 p.2 t1))⟩,
              rl2)
          ∧ ∀ r ∈ reqs,
              (List.lookup r.1 rl2.rateLimits).bind
                  (fun e => List.lookup r.2.2 e.state)
                = some ⟨t1, stepValue r.2.1.limit
                    (List.lookup r.2.2 r.2.1.state) t1⟩) := by
  constructor
  · intro cfg keys store t1 rkls hg hacc
    by_cases hk : keys = []
    · subst hk
      rw [gatherLimits] at hg
      cases hg
      constructor
      · rw [transactionalRequest]
        simp
      · rw [scriptRequest]
        simp
    · have hacc2 : ∀ i ∈ (rkls.map fun rkl => (rkl.1, rkl.2, store rkl.1)),
          ¬ headroom i.2.1 i.2.2 t1 < -i.2.1.delay := by
        intro i hi
        obtain ⟨rkl, hrkl, hie⟩ := List.mem_map.mp hi
        subst hie
        intro hlt
        exact hacc rkl hrkl ((limitStep_eq_reject_iff _ _ _).mpr hlt)
      have htx := txFn_accept (rkls.map fun rkl => (rkl.1, rkl.2, store rkl.1))
        t1 hacc2
      have hlua := luaScriptRun_accept
        (rkls.map fun rkl => (rkl.1, rkl.2, store rkl.1)) t1 hacc2
      constructor
      · simp only [transactionalRequest, if_neg hk, hg, htx, List.map_map]
        rfl
      · simp only [scriptRequest, if_neg hk, hg, hlua, List.map_map]
        rfl
  · intro rl keys t1 reqs hreqs hacc hnd
    refine inMemoryRequest_of_accept rl keys t1 reqs hreqs ?_ hnd
    intro p hp
    intro hlt
    exact hacc p hp ((limitStep_eq_reject_iff _ _ _).mpr hlt)

/-- Witness for C3: one limit (rate 2, burst 0, delay 2) with prior state
`(100, 1)` evaluated at `t1 = 100.2`: `v1 = 1.6`, `c = -0.6` is in the delay
band, so the request is accepted with delay `0.3` and the new state
`(100.2, 1.6)` is written. -/
theorem C3_accept_combination_witness :
    transactionalRequest
        ⟨[("k1", ⟨⟨"z1", 2, 60⟩, 0, 2⟩)], defaultRedisKey⟩
        [("k1", "foo")]
        (fun k => if k = "redbucket:z1:foo" then some ⟨100, 1⟩ else none)
        (501/5)
      = .ok (⟨true, some (3/10)⟩, ["redbucket:z1:foo"],
          [("redbucket:z1:foo", 60, ⟨501/5, 8/5⟩)]) := by
  have h := (C3_accept_combination.1
    ⟨[("k1", ⟨⟨"z1", 2, 60⟩, 0, 2⟩)], defaultRedisKey⟩
    [("k1", "foo")]
    (fun k => if k = "redbucket:z1:foo" then some ⟨100, 1⟩ else none)
    (501/5)
    [("redbucket:z1:foo", ⟨⟨"z1", 2, 60⟩, 0, 2⟩)]
    (by rfl)
    (by
      intro i hi
      simp only [List.mem_singleton] at hi
      subst hi
      intro hr
      rw [limitStep_unfold] at hr
      rw [if_neg (by norm_num [headroom, stepValue, priorState])] at hr
      exact absurd hr (by simp))).1
  refine h.trans ?_
  have hd : perLimitDelay ⟨⟨"z1", 2, 60⟩, 0, 2⟩ (some ⟨100, 1⟩) (501/5)
      = 3/10 := by
    rw [perLimitDelay, if_pos (by norm_num [headroom, stepValue, priorState])]
    norm_num [headroom, stepValue, priorState]
  have hv : stepValue ⟨⟨"z1", 2, 60⟩, 0, 2⟩ (some ⟨100, 1⟩) (501/5)
      = 8/5 := by
    norm_num [stepValue, priorState]
  simp only [List.map_cons, List.map_nil, List.foldl]
  norm_num [hd, hv]

/-! ### Response invariant (C9) -/

/-- The response computed by one transaction attempt: on accept the delay is
present and non-negative, on reject it is absent. -/
theorem txFn_response_invariant (items : List (String × RateLimit × Option State))
    (t1 : ℚ) :
    ((txFn items t1).1.accepted = true →
      ∃ d, (txFn items t1).1.delay = some d ∧ 0 ≤ d)
    ∧ ((txFn items t1).1.accepted = false → (txFn items t1).1.delay = none) := by
  cases he : evalLimits t1 (items.map fun i => (i.2.1, i.2.2)) 0 with
  | none =>
    rw [txFn, he]
    constructor
    · intro h
      exact absurd (show (true : Bool) = false from h.symm) (by simp)
    · intro _
      rfl
  | some r =>
    obtain ⟨d, sts⟩ := r
    have hd := evalLimits_some_le t1 _ 0 d sts he
    rw [txFn, he]
    constructor
    · intro _
      exact ⟨d, rfl, hd⟩
    · intro h
      exact absurd (show (true : Bool) = false from h) (by simp)

/-- The result of one script run: a present result is a non-negative delay. -/
theorem luaScriptRun_response_invariant
    (items : List (String × RateLimit × Option State)) (t1 : ℚ) :
    ∀ d, (luaScriptRun items t1).1 = some d → 0 ≤ d := by
  intro d
  cases he : evalLimits t1 (items.map fun i => (i.2.1, i.2.2)) 0 with
  | none =>
    rw [luaScriptRun, he]
    intro h
    exact absurd h (by simp)
  | some r =>
    obtain ⟨d2, sts⟩ := r
    have hd := evalLimits_some_le t1 _ 0 d2 sts he
    rw [luaScriptRun, he]
    intro h
    have : d2 = d := Option.some.inj h
    rw [← this]
    exact hd

/-- C9: every response of every backend satisfies the invariant: if the
request was accepted the delay is a non-negative number, and if it was
rejected the delay is absent. -/
theorem C9_response_invariant :
    (∀ (rl : InMemoryLimiter) (keys : List (String × String)) (t1 : ℚ)
      (r : Response × InMemoryLimiter), inMemoryRequest rl keys t1 = .ok r →
      (r.1.accepted = true → ∃ d, r.1.delay = some d ∧ 0 ≤ d)
      ∧ (r.1.accepted = false → r.1.delay = none))
    ∧ (∀ (cfg : RedisConfig) (keys : List (String × String))
        (store : String → Option State) (t1 : ℚ)
        (r : Response × List String × List (String × ℤ × State)),
        transactionalRequest cfg keys store t1 = .ok r →
        (r.1.accepted = true → ∃ d, r.1.delay = some d ∧ 0 ≤ d)
        ∧ (r.1.accepted = false → r.1.delay = none))
    ∧ (∀ (cfg : RedisConfig) (keys : List (String × String))
        (store : String → Option State) (t1 : ℚ)
        (r : Response × List String × List (String × ℤ × State)),
        scriptRequest cfg keys store t1 = .ok r →
        (r.1.accepted = true → ∃ d, r.1.delay = some d ∧ 0 ≤ d)
        ∧ (r.1.accepted = false → r.1.delay = none))
    ∧ (∀ (cfg : RedisConfig) (keys : List (String × String))
        (store : String → Option State) (t1 : ℚ)
        (r : Response × List String × List (String × ℤ × State)),
        redisPyRequest cfg keys store t1 = .ok r →
        (r.1.accepted = true → ∃ d, r.1.delay = some d ∧ 0 ≤ d)
        ∧ (r.1.accepted = false → r.1.delay = none)) := by
  refine ⟨?_, ?_, ?_, ?_⟩
  · intro rl keys t1 r h
    cases hreqs : inMemoryReqs rl keys with
    | error e =>
      rw [inMemoryRequest, hreqs] at h
      exact absurd h (by simp [Except.map])
    | ok reqs =>
      rw [inMemoryRequest, hreqs] at h
      simp only [Except.map] at h
      have hr : r = inMemoryEval rl reqs t1 := (Except.ok.inj h).symm
      subst hr
      cases he : evalLimits t1 (inMemoryPairs reqs) 0 with
      | none =>
        rw [inMemoryEval, he]
        exact ⟨fun hx => absurd (show (true : Bool) = false from hx.symm)
          (by simp), fun _ => rfl⟩
      | some r2 =>
        obtain ⟨d, sts⟩ := r2
        have hd := evalLimits_some_le t1 _ 0 d sts he
        rw [inMemoryEval, he]
        exact ⟨fun _ => ⟨d, rfl, hd⟩,
          fun hx => absurd (show (true : Bool) = false from hx) (by simp)⟩
  · intro cfg keys store t1 r h
    by_cases hk : keys = []
    · subst hk
      rw [transactionalRequest] at h
      simp only [if_pos rfl] at h
      have hr : r = (⟨true, some 0⟩, [], []) := (Except.ok.inj h).symm
      subst hr
      exact ⟨fun _ => ⟨0, rfl, le_rfl⟩,
        fun hx => absurd (show (true : Bool) = false from hx) (by simp)⟩
    · cases hg : gatherLimits cfg keys with
      | error e =>
        rw [transactionalRequest, if_neg hk, hg] at h
        exact absurd h (by simp)
      | ok rkls =>
        simp only [transactionalRequest, if_neg hk, hg] at h
        have hr : r = ((txFn (rkls.map fun rkl =>
            (rkl.1, rkl.2, store rkl.1)) t1).1, rkls.map (·.1),
            (txFn (rkls.map fun rkl => (rkl.1, rkl.2, store rkl.1)) t1).2) :=
          (Except.ok.inj h).symm
        subst hr
        exact txFn_response_invariant _ t1
  · intro cfg keys store t1 r h
    by_cases hk : keys = []
    · subst hk
      rw [scriptRequest] at h
      simp only [if_pos rfl] at h
      have hr : r = (⟨true, some 0⟩, [], []) := (Except.ok.inj h).symm
      subst hr
      exact ⟨fun _ => ⟨0, rfl, le_rfl⟩,
        fun hx => absurd (show (true : Bool) = false from hx) (by simp)⟩
    · cases hg : gatherLimits cfg keys with
      | error e =>
        rw [scriptRequest, if_neg hk, hg] at h
        exact absurd h (by simp)
      | ok rkls =>
        simp only [scriptRequest, if_neg hk, hg] at h
        cases hres : (luaScriptRun (rkls.map fun rkl =>
            (rkl.1, rkl.2, store rkl.1)) t1).1 with
        | none =>
          rw [hres] at h
          have hr : r = (⟨false, none⟩, rkls.map (·.1),
              (luaScriptRun (rkls.map fun rkl =>
                (rkl.1, rkl.2, store rkl.1)) t1).2) := (Except.ok.inj h).symm
          subst hr
          exact ⟨fun hx => absurd (show (true : Bool) = false from hx.symm)
            (by simp), fun _ => rfl⟩
        | some d =>
          rw [hres] at h
          have hr : r = (⟨true, some d⟩, rkls.map (·.1),
              (luaScriptRun (rkls.map fun rkl =>
                (rkl.1, rkl.2, store rkl.1)) t1).2) := (Except.ok.inj h).symm
          subst hr
          have hd := luaScriptRun_response_invariant
            (rkls.map fun rkl => (rkl.1, rkl.2, store rkl.1)) t1 d hres
          exact ⟨fun _ => ⟨d, rfl, hd⟩,
            fun hx => absurd (show (true : Bool) = false from hx) (by simp)⟩
  · intro cfg keys store t1 r h
    cases hg : gatherLimits cfg keys with
    | error e =>
      rw [redisPyRequest, hg] at h
      exact absurd h (by simp)
    | ok rkls =>
      simp only [redisPyRequest, hg] at h
      have hr : r = ((txFn (rkls.map fun rkl =>
          (rkl.1, rkl.2, store rkl.1)) t1).1, rkls.map (·.1),
          (txFn (rkls.map fun rkl => (rkl.1, rkl.2, store rkl.1)) t1).2) :=
        (Except.ok.inj h).symm
      subst hr
      exact txFn_response_invariant _ t1

/-- Witness for C9: the invariant at a concrete accepted response of the
transactional backend. -/
theorem C9_response_invariant_witness :
    ∃ d, (⟨(true : Bool), some (0 : ℚ)⟩ : Response).delay = some d ∧ 0 ≤ d := by
  have h := (C9_response_invariant.2.1
    ⟨[], defaultRedisKey⟩ [] (fun _ => none) 100
    (⟨true, some 0⟩, [], []) (by rfl)).1
  exact h rfl

/-! ### First request on fresh keys (C10) -/

/-- C10: a non-empty request in which every referenced key has no prior state
is accepted with delay exactly 0 — whatever the rates, bursts and delays, the
bursts being non-negative and the delays non-negative as the data model
requires — and every referenced key receives the state `(t1, 1)` carrying the
shared clock sample `t1`. -/
theorem C10_fresh_keys (cfg : RedisConfig) (keys : List (String × String))
    (store : String → Option State) (t1 : ℚ)
    (rkls : List (String × RateLimit))
    (rl : InMemoryLimiter) (mkeys : List (String × String))
    (reqs : List (String × MemEntry × String)) :
    (gatherLimits cfg keys = .ok rkls →
      keys ≠ [] →
      (∀ i ∈ rkls, store i.1 = none) →
      (∀ i ∈ rkls, 0 ≤ i.2.burst ∧ 0 ≤ i.2.delay) →
      transactionalRequest cfg keys store t1 = .ok
        (⟨true, some 0⟩, rkls.map (·.1),
          rkls.map fun i => (i.1, i.2.zone.expiry, ⟨t1, 1⟩))
      ∧ scriptRequest cfg keys store t1 = .ok
        (⟨true, some 0⟩, rkls.map (·.1),
          rkls.map fun i => (i.1, i.2.zone.expiry, ⟨t1, 1⟩)))
    ∧ (inMemoryReqs rl mkeys = .ok reqs →
      mkeys ≠ [] →
      (∀ r ∈ reqs, List.lookup r.2.2 r.2.1.state = none) →
      (∀ r ∈ reqs, 0 ≤ r.2.1.limit.burst ∧ 0 ≤ r.2.1.limit.delay) →
      (mkeys.map fun k => k.1).Nodup →
      ∃ rl2, inMemoryRequest rl mkeys t1 = .ok (⟨true, some 0⟩, rl2)
        ∧ ∀ r ∈ reqs,
            (List.lookup r.1 rl2.rateLimits).bind
                (fun e => List.lookup r.2.2 e.state)
              = some ⟨t1, 1⟩) := by
  constructor
  · intro hg hk habsent hnn
    have hacc2 : ∀ i ∈ (rkls.map fun rkl => (rkl.1, rkl.2, store rkl.1)),
        ¬ headroom i.2.1 i.2.2 t1 < -i.2.1.delay := by
      intro i hi
      obtain ⟨rkl, hrkl, hie⟩ := List.mem_map.mp hi
      subst hie
      show ¬ headroom rkl.2 (store rkl.1) t1 < -rkl.2.delay
      rw [habsent rkl hrkl, headroom_none]
      intro hlt
      have h1 := (hnn rkl hrkl).1
      have h2 := (hnn rkl hrkl).2
      linarith
    have htx := txFn_accept (rkls.map fun rkl => (rkl.1, rkl.2, store rkl.1))
      t1 hacc2
    have hlua := luaScriptRun_accept
      (rkls.map fun rkl => (rkl.1, rkl.2, store rkl.1)) t1 hacc2
    have hdelays : ((rkls.map fun rkl => (rkl.1, rkl.2, store rkl.1)).map
        fun i => perLimitDelay i.2.1 i.2.2 t1) = rkls.map fun _ => (0 : ℚ) := by
      rw [List.map_map]
      refine List.map_congr_left ?_
      intro rkl hrkl
      show perLimitDelay rkl.2 (store rkl.1) t1 = 0
      rw [perLimitDelay, habsent rkl hrkl]
      rw [if_neg (by
        rw [headroom_none]
        exact not_lt.mpr (hnn rkl hrkl).1)]
    have hzero : List.foldl max 0
        ((rkls.map fun rkl => (rkl.1, rkl.2, store rkl.1)).map
          fun i => perLimitDelay i.2.1 i.2.2 t1) = 0 := by
      rw [hdelays]
      refine foldl_max_zero _ ?_
      intro x hx
      obtain ⟨rkl, _, hxe⟩ := List.mem_map.mp hx
      exact hxe.symm
    have hwrites : ((rkls.map fun rkl => (rkl.1, rkl.2, store rkl.1)).map
        fun i => (i.1, i.2.1.zone.expiry,
          State.mk t1 (stepValue i.2.1 i.2.2 t1))) =
        rkls.map fun i => (i.1, i.2.zone.expiry, State.mk t1 1) := by
      rw [List.map_map]
      refine List.map_congr_left ?_
      intro rkl hrkl
      show (rkl.1, rkl.2.zone.expiry,
          State.mk t1 (stepValue rkl.2 (store rkl.1) t1)) = _
      rw [habsent rkl hrkl, stepValue_none]
    rw [hzero, hwrites] at htx hlua
    constructor
    · simp only [transactionalRequest, if_neg hk, hg, htx]
    · simp only [scriptRequest, if_neg hk, hg, hlua]
  · intro hreqs hk habsent hnn hnd
    have hacc : ∀ p ∈ inMemoryPairs reqs,
        ¬ headroom p.1 p.2 t1 < -p.1.delay := by
      intro p hp
      obtain ⟨r, hr, hpe⟩ := List.mem_map.mp hp
      subst hpe
      show ¬ headroom r.2.1.limit (List.lookup r.2.2 r.2.1.state) t1
        < -r.2.1.limit.delay
      rw [habsent r hr, headroom_none]
      intro hlt
      have h1 := (hnn r hr).1
      have h2 := (hnn r hr).2
      linarith
    obtain ⟨rl2, heq, hstates⟩ :=
      inMemoryRequest_of_accept rl mkeys t1 reqs hreqs hacc hnd
    have hzero : List.foldl max 0
        ((inMemoryPairs reqs).map fun p => perLimitDelay p.1 p.2 t1) = 0 := by
      refine foldl_max_zero _ ?_
      intro x hx
      obtain ⟨p, hp, hxe⟩ := List.mem_map.mp hx
      obtain ⟨r, hr, hpe⟩ := List.mem_map.mp hp
      subst hpe
      rw [← hxe]
      show perLimitDelay r.2.1.limit (List.lookup r.2.2 r.2.1.state) t1 = 0
      rw [perLimitDelay, habsent r hr]
      rw [if_neg (by
        rw [headroom_none]
        exact not_lt.mpr (hnn r hr).1)]
    rw [hzero] at heq
    refine ⟨rl2, heq, ?_⟩
    intro r hr
    have hst := hstates r hr
    rw [habsent r hr, stepValue_none] at hst
    exact hst

/-- Witness for C10: one limit over an empty store at `t1 = 100`: accepted
with delay 0 and state `(100, 1)` written. -/
theorem C10_fresh_keys_witness :
    transactionalRequest
        ⟨[("k1", ⟨⟨"z1", 2, 60⟩, 0, 0⟩)], defaultRedisKey⟩
        [("k1", "foo")] (fun _ => none) 100
      = .ok (⟨true, some 0⟩, ["redbucket:z1:foo"],
          [("redbucket:z1:foo", 60, ⟨100, 1⟩)]) := by
  have h := (C10_fresh_keys
    ⟨[("k1", ⟨⟨"z1", 2, 60⟩, 0, 0⟩)], defaultRedisKey⟩
    [("k1", "foo")] (fun _ => none) 100
    [("redbucket:z1:foo", ⟨⟨"z1", 2, 60⟩, 0, 0⟩)]
    ⟨[]⟩ [] []).1
    (by rfl) (by simp) (by intro i _; rfl)
    (by intro i hi; simp only [List.mem_singleton] at hi; subst hi
        exact ⟨le_rfl, le_rfl⟩)
  exact h.1

/-! ### Empty requests (C4) -/

/-- C4: a request with an empty key mapping is accepted with delay 0 and
reads and writes nothing, for the in-memory, transactional and scripted
backends (the latter two short-circuit before touching Redis). The stale
`redis.py` module, however, cannot even be loaded: it imports `State` from
`redbucket.base`, which does not bind that name, so Python raises
`ImportError`; and its `_request`, which lacks the empty-key short circuit,
would run the transaction body over zero keys. -/
theorem C4_empty_request :
    (∀ (rl : InMemoryLimiter) (t1 : ℚ),
      inMemoryRequest rl [] t1 = .ok (⟨true, some 0⟩, rl))
    ∧ (∀ (cfg : RedisConfig) (store : String → Option State) (t1 : ℚ),
        transactionalRequest cfg [] store t1 = .ok (⟨true, some 0⟩, [], []))
    ∧ (∀ (cfg : RedisConfig) (store : String → Option State) (t1 : ℚ),
        scriptRequest cfg [] store t1 = .ok (⟨true, some 0⟩, [], []))
    ∧ (∀ (cfg : RedisConfig) (store : String → Option State) (t1 : ℚ),
        redisPyRequest cfg [] store t1 = .ok (⟨true, some 0⟩, [], []))
    ∧ "State" ∈ redisModuleBaseImports
    ∧ "State" ∉ baseModuleNames
    ∧ redisModuleImportOk = false := by
  refine ⟨fun rl t1 => rfl, fun cfg store t1 => rfl, fun cfg store t1 => rfl,
    fun cfg store t1 => rfl, by decide, by decide, by decide⟩

/-! ### Configuration lifecycle (C5) -/

/-- C5: the `base.py` lifecycle — `configure` on an already configured
limiter raises `RuntimeError` (the stored configuration is untouched, no
successful reconfiguration is possible), and `request` before `configure`
raises `RuntimeError`. The Redis backends inherit this lifecycle from
`RateLimiter`. The `InMemoryRateLimiter` of `in_memory.py`, however, does
not: it is configured in its constructor, has no `configure` method and no
unconfigured state, and serves requests immediately after construction, as
the last two conjuncts evaluate. -/
theorem C5_lifecycle :
    (∀ (rl : BaseLimiter) (limits : List (String × RateLimit)),
      rl.configured = true →
      baseConfigure rl limits = .error .alreadyConfigured)
    ∧ (∀ rl : BaseLimiter, rl.configured = false →
        baseRequestGuard rl = .error .notConfigured)
    ∧ inMemoryInit [] = .ok ⟨[]⟩
    ∧ (∀ t1, inMemoryRequest ⟨[]⟩ [] t1 = .ok (⟨true, some 0⟩, ⟨[]⟩)) := by
  refine ⟨?_, ?_, rfl, fun t1 => rfl⟩
  · intro rl limits h
    rw [baseConfigure, if_pos h]
  · intro rl h
    rw [baseRequestGuard, if_neg (by rw [h]; exact Bool.false_ne_true)]

/-- Witness for C5: the lifecycle errors at concrete limiters. -/
theorem C5_lifecycle_witness :
    baseConfigure ⟨true, []⟩ [] = .error .alreadyConfigured
    ∧ baseRequestGuard ⟨false, []⟩ = .error .notConfigured := by
  exact ⟨C5_lifecycle.1 ⟨true, []⟩ [] rfl, C5_lifecycle.2.1 ⟨false, []⟩ rfl⟩

end Redbucket
